import Mathlib

/-!
# Verification of the `goad_exercises` notebooks

Shallow embedding of the teaching classes defined in the repository's
notebooks (`03_monte_carlo.ipynb`, `05_abtesting.ipynb`,
`04_probabilistic_modelling.ipynb`, `02_metropolis_hastings.ipynb`) and of
the spec-described demo script, together with proofs of the claimed
properties.

Floating-point values are modelled as rationals (`ℚ`); random draws are
modelled as explicit oracle streams passed to the functions that consume
them, so that one call of the Python code corresponds to one application of
the Lean function to the relevant prefix of the stream.
-/

namespace Goad

/-! ## 03_monte_carlo.ipynb : `Point`, `MonteCarloCirle`, `ApproxPi` -/

/-- The `Point` dataclass from `03_monte_carlo.ipynb` (floats modelled as `ℚ`). -/
structure Point where
  x : ℚ
  y : ℚ
deriving DecidableEq, Repr

instance : Inhabited Point := ⟨⟨0, 0⟩⟩

/-- Class `MonteCarloCirle` (sic — the class name is misspelled in the notebook).
The `self.dist` field is a scipy uniform distribution used only as a random
source; point draws are supplied as an oracle stream to `generate`. -/
structure MonteCarloCirle where
  radius : ℚ
deriving DecidableEq, Repr

/-- Method `MonteCarloCirle.is_in_circle`: `(point.x**2 + point.y**2) <= self.radius**2`. -/
def MonteCarloCirle.is_in_circle (c : MonteCarloCirle) (p : Point) : Bool :=
  decide (p.x ^ 2 + p.y ^ 2 ≤ c.radius ^ 2)

/-- Method `MonteCarloCirle.generate`: the generator yields, at each step, a freshly
sampled point (the `n`-th draw of the stream `pts`) paired with
`is_in_circle` of that same point. -/
def MonteCarloCirle.generate (c : MonteCarloCirle) (pts : ℕ → Point) (n : ℕ) :
    Point × Bool :=
  let point := pts n
  (point, c.is_in_circle point)

/-- Whether the `i`-th drawn point lies in the unit circle (the `ApproxPi`
class always uses `MonteCarloCirle(radius=1)`). -/
def inCircleAt (pts : ℕ → Point) (i : ℕ) : Bool :=
  (MonteCarloCirle.mk 1).is_in_circle (pts i)

/-- Number of the first `n` draws that land in the unit circle. -/
def insideCount (pts : ℕ → Point) (n : ℕ) : ℕ :=
  ((List.range n).filter (inCircleAt pts)).length

/-- State of an `ApproxPi` instance: the fields set in `__init__` and
mutated by `run`.  The shared point generator is modelled by indexing the
point stream with `total`, which counts every draw made since construction
and is never reset. -/
structure ApproxPi where
  max : ℕ
  inside : ℕ
  total : ℕ
  report : ℕ
  log : List ℚ
deriving DecidableEq, Repr

/-- Constructor `ApproxPi.__init__(maximum, report)`. -/
def ApproxPi.init (maximum report : ℕ) : ApproxPi :=
  { max := maximum, inside := 0, total := 0, report := report, log := [] }

/-- One iteration of the `for` loop in `ApproxPi.run`: increment `total`,
draw the next point from the generator, increment `inside` if it is in the
circle, and append `4 * inside / total` to `log` when `total` is a multiple
of `report`. -/
def ApproxPi.step (pts : ℕ → Point) (st : ApproxPi) : ApproxPi :=
  let total := st.total + 1
  let isIn := inCircleAt pts st.total
  let inside := if isIn then st.inside + 1 else st.inside
  let log :=
    if total % st.report = 0 then st.log ++ [(4 * inside : ℚ) / (total : ℚ)]
    else st.log
  { st with total := total, inside := inside, log := log }

/-- Run `n` iterations of the loop body of `ApproxPi.run`. -/
def ApproxPi.runFrom (pts : ℕ → Point) (st : ApproxPi) : ℕ → ApproxPi
  | 0 => st
  | n + 1 => ApproxPi.runFrom pts (st.step pts) n

/-- The state after one call of `ApproxPi.run` (the loop runs `self.max`
times). -/
def ApproxPi.runState (st : ApproxPi) (pts : ℕ → Point) : ApproxPi :=
  st.runFrom pts st.max

/-- Method `ApproxPi.run`: runs the loop and returns `self.log`. -/
def ApproxPi.run (st : ApproxPi) (pts : ℕ → Point) : List ℚ :=
  (st.runState pts).log

/-- The state after `k` successive calls of `ApproxPi.run` on the same
instance (the point generator is shared across calls). -/
def ApproxPi.runTimes (st : ApproxPi) (pts : ℕ → Point) : ℕ → ApproxPi
  | 0 => st
  | k + 1 => (st.runTimes pts k).runState pts

/-- The log contents determined by the draw stream: one entry for each
total `i + 1 ≤ t` that is a multiple of `report`, holding
`4 * inside / total` computed over all draws since construction. -/
def logUpTo (pts : ℕ → Point) (report : ℕ) (t : ℕ) : List ℚ :=
  ((List.range t).filter (fun i => (i + 1) % report = 0)).map
    (fun i => (4 * insideCount pts (i + 1) : ℚ) / ((i + 1 : ℕ) : ℚ))

/-! ## 05_abtesting.ipynb : `BetaPrior`, `Reward`, `MultiArmedBandit` -/

/-- The `BetaPrior` dataclass: Beta parameters `a`, `b` and the arm's true
Bernoulli payout probability `p`. -/
structure BetaPrior where
  a : ℤ
  b : ℤ
  p : ℚ
deriving DecidableEq, Repr

instance : Inhabited BetaPrior := ⟨⟨0, 0, 0⟩⟩

/-- Class `Reward`: holds `self.p = [beta.p for beta in priors]`; the parallel
`self.bernoulli` list contains one Bernoulli distribution per entry of
`self.p`, with the same parameter, so it is represented by the same list. -/
structure Reward where
  p : List ℚ
deriving DecidableEq, Repr

/-- Constructor `Reward.__init__(priors)`. -/
def Reward.ofPriors (priors : List BetaPrior) : Reward :=
  ⟨priors.map (fun beta => beta.p)⟩

/-- Method `Reward.pay(arm)`: `bool(self.bernoulli[arm].rvs())`.  A Bernoulli(p)
draw is modelled as `u < p` for a uniform draw `u ∈ [0, 1)`; indexing out of
range raises `IndexError` in Python, modelled by `none`. -/
def Reward.pay (r : Reward) (arm : ℕ) (u : ℚ) : Option Bool :=
  (r.p[arm]?).map (fun pr => decide (u < pr))

/-- Function `np.argmax`: index of the first occurrence of the maximum of the list
(on the empty list numpy raises; the value `0` here is never used under the
non-empty hypotheses of the theorems below). -/
def argmax (l : List ℚ) : ℕ :=
  match l.max? with
  | some m => l.indexOf m
  | none => 0

/-- Class `MultiArmedBandit`: `self.arms` holds the `args = (a, b)` of each arm's
Beta distribution, `self.rewards` the `Reward` built from the same
priors. -/
structure MultiArmedBandit where
  arms : List (ℤ × ℤ)
  rewards : Reward
deriving DecidableEq, Repr

/-- Constructor `MultiArmedBandit.__init__(priors)`. -/
def MultiArmedBandit.ofPriors (priors : List BetaPrior) : MultiArmedBandit :=
  { arms := priors.map (fun pr => (pr.a, pr.b)), rewards := Reward.ofPriors priors }

/-- The comprehension `sample = [arm.rvs() for arm in self.arms]`: one Beta draw per arm,
supplied by the oracle `rvs`. -/
def MultiArmedBandit.sample (b : MultiArmedBandit) (rvs : ℕ → ℚ) : List ℚ :=
  (List.range b.arms.length).map rvs

/-- Method `MultiArmedBandit.pull()`: sample every arm, take the argmax, draw that
arm's Bernoulli reward via `self.rewards.pay(arm)`, then increment `a` of
the selected arm on a win and `b` on a loss.  Out-of-range list accesses
(which raise in Python) yield `none`. -/
def MultiArmedBandit.pull (b : MultiArmedBandit) (rvs : ℕ → ℚ) (u : ℚ) :
    Option MultiArmedBandit :=
  let sample := b.sample rvs
  let arm := argmax sample
  (b.rewards.pay arm u).bind (fun reward =>
    (b.arms[arm]?).map (fun ab =>
      { b with arms := b.arms.set arm (if reward then (ab.1 + 1, ab.2) else (ab.1, ab.2 + 1)) }))

/-- Runs `n` successive calls of `pull()`, with fresh oracle draws each call. -/
def MultiArmedBandit.pullN (b : MultiArmedBandit) (rvs : ℕ → ℕ → ℚ) (us : ℕ → ℚ) :
    ℕ → Option MultiArmedBandit
  | 0 => some b
  | n + 1 => (b.pullN rvs us n).bind (fun c => c.pull (rvs n) (us n))

/-- Sum over all arms of `a + b` (the total Beta-parameter mass). -/
def armTotal (b : MultiArmedBandit) : ℤ :=
  (b.arms.map (fun ab => ab.1 + ab.2)).sum

/-- The priors of the `multiarmedbandit = MultiArmedBandit(priors)` demo
cell, used as concrete witness input. -/
def priorsW : List BetaPrior := [⟨3, 7, 3/10⟩, ⟨4, 7, 7/20⟩]

/-- A concrete sample oracle for witnesses. -/
def rvsW : ℕ → ℚ := fun i => if i = 0 then 1/2 else 1/4

/-! ## 02_metropolis_hastings.ipynb : the `Metropolis` accept step

The `Metropolis` and `Dist` classes are imported in the notebook from an
`inference` module whose source is not part of the repository checkout;
only their call sites appear in `02_metropolis_hastings.ipynb`. -/

/-- Modelled from the spec: the `Metropolis.accept(proposed, current)` step
of the `inference` module (absent from the checkout; the notebook only
imports and calls it).  Per the spec, a proposal with log-probability at
least the current one is always accepted, and otherwise it is accepted with
probability `exp(proposed - current)`; the probabilistic branch is modelled
by a uniform draw `u ∈ [0, 1)` accepted iff `u < exp(proposed - current)`. -/
def Metropolis.accept (proposed current u : ℝ) : Prop :=
  if current ≤ proposed then True else u < Real.exp (proposed - current)

/-! ## demo/abtesting.py : `CampaignManager.evaluate_strategy`

The demo script is described in the spec and the README but its source is
not part of the checkout. -/

/-- The three outcomes the campaign server interaction can have for one
strategy test. -/
inductive CampaignResult where
  | opened
  | notOpened
  | rateLimited
deriving DecidableEq, Repr

/-- Modelled from the spec: `CampaignManager.evaluate_strategy(strategy)` of
`demo/abtesting.py` (absent from the checkout).  Per the spec and README it
returns `1` if the email was opened, `0` if not, and the sentinel `None`
(here `none`) when the HTTP rate-limit error is caught; it has no other
failure handling and no retry. -/
def CampaignManager.evaluate_strategy (strategy : ℕ)
    (server : ℕ → CampaignResult) : Option ℕ :=
  match server strategy with
  | CampaignResult.opened => some 1
  | CampaignResult.notOpened => some 0
  | CampaignResult.rateLimited => none

/-! ## 04_probabilistic_modelling.ipynb : `make_linear`, `make_sine_wave` -/

/-- The local files visible to the data-generation helpers: an association
list from filename to the rows of the written CSV (a pair of columns). -/
abbrev FileSystem := List (String × List (ℚ × ℚ))

/-- Function `np.linspace(lo, hi, num)`: `num` evenly spaced points with both
endpoints included (`[lo]` for `num = 1`, `[]` for `num = 0`). -/
def linspace (lo hi : ℚ) (num : ℕ) : List ℚ :=
  if num ≤ 1 then List.replicate num lo
  else (List.range num).map (fun i => lo + (hi - lo) * i / ((num : ℚ) - 1))

/-- Function `make_linear(filename, size, a, b, s)`: if the file exists it only logs
and returns the filename; otherwise it writes a CSV with columns
`x = np.linspace(0, 1, size)` and `y = a * x + b + noise`, where
`noise = np.random.normal(scale=s, size=len(x))` is modelled as
`s * gauss i` for a standard-normal draw oracle `gauss`, then returns the
filename. -/
def make_linear (filename : String) (size : ℕ) (a b s : ℚ) (gauss : ℕ → ℚ)
    (fs : FileSystem) : FileSystem × String :=
  match fs.lookup filename with
  | some _ => (fs, filename)
  | none =>
      let x := linspace 0 1 size
      let rows := (List.range x.length).map (fun i => (x[i]!, a * x[i]! + b + s * gauss i))
      ((filename, rows) :: fs, filename)

/-- Function `make_sine_wave(filename, a, f, s, t)`: if the file exists it only logs;
otherwise it writes a CSV with columns `t` (default `np.linspace(0, 4, 100)`)
and `v = a * np.sin(f * t) + noise`, with `np.sin` modelled by the float
oracle `sinF` and the noise as for `make_linear`.  Although its signature is
annotated `-> None`, it returns the filename in both branches. -/
def make_sine_wave (filename : String) (a f s : ℚ) (t : List ℚ)
    (sinF : ℚ → ℚ) (gauss : ℕ → ℚ) (fs : FileSystem) : FileSystem × String :=
  match fs.lookup filename with
  | some _ => (fs, filename)
  | none =>
      let rows := (List.range t.length).map (fun i => (t[i]!, a * sinF (f * t[i]!) + s * gauss i))
      ((filename, rows) :: fs, filename)

/-! ## Proofs -/

/-! ### Lemmas about `ApproxPi` -/

theorem insideCount_succ (pts : ℕ → Point) (n : ℕ) :
    insideCount pts (n + 1) =
      insideCount pts n + (if inCircleAt pts n then 1 else 0) := by
  unfold insideCount
  rw [List.range_succ, List.filter_append]
  by_cases h : inCircleAt pts n <;> simp [h]

theorem insideCount_le (pts : ℕ → Point) (n : ℕ) :
    insideCount pts n ≤ n := by
  calc insideCount pts n ≤ (List.range n).length := List.length_filter_le _ _
    _ = n := List.length_range n

theorem logUpTo_succ (pts : ℕ → Point) (report t : ℕ) :
    logUpTo pts report (t + 1) =
      logUpTo pts report t ++
        (if (t + 1) % report = 0 then
          [(4 * insideCount pts (t + 1) : ℚ) / ((t + 1 : ℕ) : ℚ)]
        else []) := by
  unfold logUpTo
  rw [List.range_succ, List.filter_append, List.map_append]
  by_cases h : (t + 1) % report = 0 <;> simp [h]

/-- The loop-body invariant: running `n` iterations adds `n` to `total`,
keeps `inside` equal to the number of in-circle draws so far and keeps the
log equal to `logUpTo`; `max` and `report` never change. -/
theorem runFrom_invariant (pts : ℕ → Point) :
    ∀ (n : ℕ) (st : ApproxPi),
      st.inside = insideCount pts st.total →
      st.log = logUpTo pts st.report st.total →
      (st.runFrom pts n).max = st.max ∧
      (st.runFrom pts n).report = st.report ∧
      (st.runFrom pts n).total = st.total + n ∧
      (st.runFrom pts n).inside = insideCount pts (st.total + n) ∧
      (st.runFrom pts n).log = logUpTo pts st.report (st.total + n) := by
  intro n
  induction n with
  | zero =>
    intro st h1 h2
    exact ⟨rfl, rfl, rfl, by simpa using h1.symm ▸ rfl, by simpa using h2⟩
  | succ n ih =>
    intro st h1 h2
    have hstep1 : (st.step pts).inside = insideCount pts (st.step pts).total := by
      simp only [ApproxPi.step, insideCount_succ, h1]
      by_cases h : inCircleAt pts st.total <;> simp [h]
    have hstep2 : (st.step pts).log = logUpTo pts (st.step pts).report (st.step pts).total := by
      simp only [ApproxPi.step, logUpTo_succ, h2]
      have hin : (if inCircleAt pts st.total then st.inside + 1 else st.inside) =
          insideCount pts (st.total + 1) := by
        rw [insideCount_succ, h1]
        by_cases h : inCircleAt pts st.total <;> simp [h]
      by_cases h : (st.total + 1) % st.report = 0 <;> simp [h, hin]
    have hms : (st.step pts).max = st.max := rfl
    have hrs : (st.step pts).report = st.report := rfl
    have hts : (st.step pts).total = st.total + 1 := rfl
    obtain ⟨hm, hr, ht, hi, hl⟩ := ih (st.step pts) hstep1 hstep2
    refine ⟨by rw [ApproxPi.runFrom, hm, hms], by rw [ApproxPi.runFrom, hr, hrs], ?_, ?_, ?_⟩
    · rw [ApproxPi.runFrom, ht, hts]; omega
    · rw [ApproxPi.runFrom, hi, hts]; congr 1; omega
    · rw [ApproxPi.runFrom, hl, hrs, hts]; congr 1; omega

/-- Number of log entries: `logUpTo` over `t` draws has `t / report`
entries. -/
theorem logUpTo_length (pts : ℕ → Point) (report : ℕ) :
    ∀ t : ℕ, (logUpTo pts report t).length = t / report := by
  intro t
  induction t with
  | zero => simp [logUpTo]
  | succ t ih =>
    rw [logUpTo_succ]
    rw [List.length_append, ih, Nat.succ_div]
    have : report ∣ t + 1 ↔ (t + 1) % report = 0 := Nat.dvd_iff_mod_eq_zero
    by_cases h : (t + 1) % report = 0
    · simp [h, this.mpr h]
    · have : ¬ report ∣ t + 1 := fun hd => h (this.mp hd)
      simp [h, this]

/-- Every entry of the log lies in the closed interval `[0, 4]`. -/
theorem logUpTo_mem_bounds (pts : ℕ → Point) (report t : ℕ) :
    ∀ q ∈ logUpTo pts report t, 0 ≤ q ∧ q ≤ 4 := by
  intro q hq
  unfold logUpTo at hq
  rw [List.mem_map] at hq
  obtain ⟨i, _, rfl⟩ := hq
  have hle : (insideCount pts (i + 1) : ℚ) ≤ ((i + 1 : ℕ) : ℚ) := by
    exact_mod_cast insideCount_le pts (i + 1)
  have hpos : (0 : ℚ) < ((i + 1 : ℕ) : ℚ) := by positivity
  constructor
  · positivity
  · rw [div_le_iff₀ hpos]
    have h0 : (0 : ℚ) ≤ 4 := by norm_num
    calc (4 * insideCount pts (i + 1) : ℚ) ≤ 4 * ((i + 1 : ℕ) : ℚ) := by
          exact mul_le_mul_of_nonneg_left hle h0
      _ = 4 * ((i + 1 : ℕ) : ℚ) := rfl

theorem runFrom_max (pts : ℕ → Point) :
    ∀ (n : ℕ) (st : ApproxPi), (st.runFrom pts n).max = st.max := by
  intro n
  induction n with
  | zero => intro st; rfl
  | succ n ih => intro st; exact ih (st.step pts)

theorem runFrom_add (pts : ℕ → Point) (m n : ℕ) :
    ∀ st : ApproxPi, st.runFrom pts (m + n) = (st.runFrom pts m).runFrom pts n := by
  induction m with
  | zero => intro st; rw [Nat.zero_add]; rfl
  | succ m ih =>
    intro st
    have h : m + 1 + n = (m + n) + 1 := by omega
    rw [h]
    show (st.step pts).runFrom pts (m + n) = _
    rw [ih (st.step pts)]
    rfl

/-- Calling `run()` `k` times on one instance execute `k * maximum` loop
iterations against the shared point generator. -/
theorem runTimes_eq_runFrom (pts : ℕ → Point) (maximum report : ℕ) :
    ∀ k : ℕ, (ApproxPi.init maximum report).runTimes pts k =
      (ApproxPi.init maximum report).runFrom pts (k * maximum) := by
  intro k
  induction k with
  | zero => simp [ApproxPi.runTimes, ApproxPi.runFrom]
  | succ k ih =>
    show ((ApproxPi.init maximum report).runTimes pts k).runState pts = _
    rw [ih]
    unfold ApproxPi.runState
    rw [runFrom_max, ← runFrom_add]
    have hmax : (ApproxPi.init maximum report).max = maximum := rfl
    rw [hmax]
    congr 1
    ring

/-! ### Claim theorems for the Monte-Carlo notebook -/

/-- C5: `is_in_circle` returns true iff `x² + y² ≤ r²` (boundary points
count as inside), and each pair yielded by `generate` is a freshly sampled
point together with `is_in_circle` applied to that same point. -/
theorem monteCarloCirle_is_in_circle_generate_spec
    (c : MonteCarloCirle) (p : Point) (pts : ℕ → Point) (n : ℕ) :
    (c.is_in_circle p = true ↔ p.x ^ 2 + p.y ^ 2 ≤ c.radius ^ 2) ∧
    c.generate pts n = (pts n, c.is_in_circle (pts n)) := by
  constructor
  · exact decide_eq_true_iff
  · rfl

/-- C3: from a fresh `ApproxPi(maximum, report)` with `report ≥ 1`, the
first `run()` performs exactly `maximum` draws, counts in `inside` exactly
the draws inside the unit circle, logs `4 * inside / total` exactly at the
draws where the running total is a multiple of `report`, and returns a log
of `maximum / report` entries, each in `[0, 4]`. -/
theorem approxPi_first_run_spec (maximum report : ℕ) (hrep : 1 ≤ report)
    (pts : ℕ → Point) :
    ((ApproxPi.init maximum report).runState pts).total = maximum ∧
    ((ApproxPi.init maximum report).runState pts).inside = insideCount pts maximum ∧
    ((ApproxPi.init maximum report).runState pts).log = logUpTo pts report maximum ∧
    ((ApproxPi.init maximum report).run pts).length = maximum / report ∧
    ∀ q ∈ (ApproxPi.init maximum report).run pts, 0 ≤ q ∧ q ≤ 4 := by
  have hinv := runFrom_invariant pts maximum (ApproxPi.init maximum report) rfl rfl
  obtain ⟨_, _, ht, hi, hl⟩ := hinv
  have hrun : (ApproxPi.init maximum report).runState pts =
      (ApproxPi.init maximum report).runFrom pts maximum := rfl
  have h0t : (ApproxPi.init maximum report).total = 0 := rfl
  have h0r : (ApproxPi.init maximum report).report = report := rfl
  simp only [h0t, h0r, Nat.zero_add] at ht hi hl
  refine ⟨?_, ?_, ?_, ?_, ?_⟩
  · rw [hrun, ht]
  · rw [hrun, hi]
  · rw [hrun, hl]
  · show ((ApproxPi.init maximum report).runState pts).log.length = _
    rw [hrun, hl]
    exact logUpTo_length pts report maximum
  · intro q hq
    have heq : (ApproxPi.init maximum report).run pts = logUpTo pts report maximum := by
      show ((ApproxPi.init maximum report).runState pts).log = _
      rw [hrun, hl]
    rw [heq] at hq
    exact logUpTo_mem_bounds pts report maximum q hq

/-- Witness for C3 at `maximum = 7`, `report = 3`, all points at the
origin. -/
theorem approxPi_first_run_spec_witness :
    1 ≤ 3 ∧
    (((ApproxPi.init 7 3).runState fun _ => Point.mk 0 0).total = 7 ∧
     ((ApproxPi.init 7 3).runState fun _ => Point.mk 0 0).inside =
       insideCount (fun _ => Point.mk 0 0) 7 ∧
     ((ApproxPi.init 7 3).runState fun _ => Point.mk 0 0).log =
       logUpTo (fun _ => Point.mk 0 0) 3 7 ∧
     ((ApproxPi.init 7 3).run fun _ => Point.mk 0 0).length = 7 / 3 ∧
     ∀ q ∈ (ApproxPi.init 7 3).run fun _ => Point.mk 0 0, 0 ≤ q ∧ q ≤ 4) :=
  ⟨by decide, approxPi_first_run_spec 7 3 (by decide) fun _ => Point.mk 0 0⟩

/-- C10 counterexample: with `maximum = 5`, `report = 2`, after `k = 2`
calls of `run()` the log holds `(2 * 5) / 2 = 5` entries, not
`k * ⌊maximum / report⌋ = 2 * 2 = 4` as the claim states. -/
theorem approxPi_runTimes_length_counterexample :
    ¬ (((ApproxPi.init 5 2).runTimes (fun _ => Point.mk 0 0) 2).log.length =
        2 * (5 / 2)) := by
  decide

/-- C10 (amended): `run()` never resets state: after `k` calls, `total`
equals `k * maximum`, the log holds `⌊k * maximum / report⌋` entries (not
`k * ⌊maximum / report⌋`), each entry is `4 * inside / total` over all draws
since construction, and each call returns the entire accumulated log. -/
theorem approxPi_runTimes_spec (maximum report k : ℕ) (hrep : 1 ≤ report)
    (pts : ℕ → Point) :
    ((ApproxPi.init maximum report).runTimes pts k).total = k * maximum ∧
    ((ApproxPi.init maximum report).runTimes pts k).log =
      logUpTo pts report (k * maximum) ∧
    ((ApproxPi.init maximum report).runTimes pts k).log.length =
      (k * maximum) / report ∧
    ∀ j : ℕ, ((ApproxPi.init maximum report).runTimes pts j).run pts =
      logUpTo pts report ((j + 1) * maximum) := by
  have key : ∀ m : ℕ,
      ((ApproxPi.init maximum report).runFrom pts m).total = m ∧
      ((ApproxPi.init maximum report).runFrom pts m).log = logUpTo pts report m := by
    intro m
    obtain ⟨_, _, ht, _, hl⟩ :=
      runFrom_invariant pts m (ApproxPi.init maximum report) rfl rfl
    have h0t : (ApproxPi.init maximum report).total = 0 := rfl
    have h0r : (ApproxPi.init maximum report).report = report := rfl
    simp only [h0t, h0r, Nat.zero_add] at ht hl
    exact ⟨ht, hl⟩
  refine ⟨?_, ?_, ?_, ?_⟩
  · rw [runTimes_eq_runFrom]; exact (key (k * maximum)).1
  · rw [runTimes_eq_runFrom]; exact (key (k * maximum)).2
  · rw [runTimes_eq_runFrom, (key (k * maximum)).2]
    exact logUpTo_length pts report (k * maximum)
  · intro j
    show (((ApproxPi.init maximum report).runTimes pts j).runState pts).log = _
    have : ((ApproxPi.init maximum report).runTimes pts j).runState pts =
        (ApproxPi.init maximum report).runTimes pts (j + 1) := rfl
    rw [this, runTimes_eq_runFrom]
    exact (key ((j + 1) * maximum)).2

/-- Witness for C10 (amended) at `maximum = 5`, `report = 2`, `k = 2`. -/
theorem approxPi_runTimes_spec_witness :
    1 ≤ 2 ∧
    (((ApproxPi.init 5 2).runTimes (fun _ => Point.mk 0 0) 2).total = 2 * 5 ∧
     ((ApproxPi.init 5 2).runTimes (fun _ => Point.mk 0 0) 2).log =
       logUpTo (fun _ => Point.mk 0 0) 2 (2 * 5) ∧
     ((ApproxPi.init 5 2).runTimes (fun _ => Point.mk 0 0) 2).log.length =
       (2 * 5) / 2 ∧
     ∀ j : ℕ, ((ApproxPi.init 5 2).runTimes (fun _ => Point.mk 0 0) j).run
         (fun _ => Point.mk 0 0) =
       logUpTo (fun _ => Point.mk 0 0) 2 ((j + 1) * 5)) :=
  ⟨by decide, approxPi_runTimes_spec 5 2 2 (by decide) fun _ => Point.mk 0 0⟩

/-! ### Lemmas about `argmax` and `pull` -/

theorem argmax_lt_length {l : List ℚ} (hne : l ≠ []) : argmax l < l.length := by
  unfold argmax
  cases hm : l.max? with
  | none => exact absurd (List.max?_eq_none_iff.mp hm) hne
  | some m =>
    have hmem : m ∈ l := List.max?_mem (fun a b => max_choice a b) hm
    exact List.indexOf_lt_length.mpr hmem

theorem le_getElem_argmax {l : List ℚ} (hne : l ≠ []) :
    ∀ x ∈ l, x ≤ l[argmax l]! := by
  intro x hx
  cases hm : l.max? with
  | none => exact absurd (List.max?_eq_none_iff.mp hm) hne
  | some m =>
    have hmem : m ∈ l := List.max?_mem (fun a b => max_choice a b) hm
    have hidx : l.indexOf m < l.length := List.indexOf_lt_length.mpr hmem
    have hargmax : argmax l = l.indexOf m := by unfold argmax; rw [hm]
    have hval : l[argmax l]! = m := by
      rw [hargmax, getElem!_pos l (l.indexOf m) hidx]
      exact List.getElem_indexOf hidx
    rw [hval]
    exact (List.max?_le_iff (fun a b c => max_le_iff) hm).1 le_rfl x hx

/-- A `pull` on a bandit with at least one arm and equal-length reward list
succeeds and performs exactly the update described in the source. -/
theorem pull_spec (b : MultiArmedBandit) (rvs : ℕ → ℚ) (u : ℚ)
    (hne : b.arms ≠ []) (hlen : b.rewards.p.length = b.arms.length) :
    ∃ pr ab,
      (b.sample rvs).length = b.arms.length ∧
      argmax (b.sample rvs) < b.arms.length ∧
      (∀ x ∈ b.sample rvs, x ≤ (b.sample rvs)[argmax (b.sample rvs)]!) ∧
      b.rewards.p[argmax (b.sample rvs)]? = some pr ∧
      b.arms[argmax (b.sample rvs)]? = some ab ∧
      b.rewards.pay (argmax (b.sample rvs)) u = some (decide (u < pr)) ∧
      b.pull rvs u = some { b with arms := b.arms.set (argmax (b.sample rvs)) (if u < pr then (ab.1 + 1, ab.2) else (ab.1, ab.2 + 1)) } := by
  have hslen : (b.sample rvs).length = b.arms.length := by
    simp [MultiArmedBandit.sample]
  have hsne : b.sample rvs ≠ [] := by
    intro h
    apply hne
    have := hslen
    rw [h] at this
    exact List.length_eq_zero.mp this.symm
  have harm : argmax (b.sample rvs) < b.arms.length := by
    rw [← hslen]; exact argmax_lt_length hsne
  have hparm : argmax (b.sample rvs) < b.rewards.p.length := by rw [hlen]; exact harm
  obtain ⟨pr, hp⟩ : ∃ pr, b.rewards.p[argmax (b.sample rvs)]? = some pr := by
    rw [List.getElem?_eq_getElem hparm]
    exact ⟨_, rfl⟩
  obtain ⟨ab, ha⟩ : ∃ ab, b.arms[argmax (b.sample rvs)]? = some ab := by
    rw [List.getElem?_eq_getElem harm]
    exact ⟨_, rfl⟩
  refine ⟨pr, ab, hslen, harm, le_getElem_argmax hsne, hp, ha, ?_, ?_⟩
  · simp [Reward.pay, hp]
  · simp [MultiArmedBandit.pull, Reward.pay, hp, ha]

/-- Effects of `pull`: it succeeds, keeps `rewards` and the number of arms, leaves every
non-selected arm untouched and adds exactly `1` to the total
Beta-parameter mass. -/
theorem pull_effects (b : MultiArmedBandit) (rvs : ℕ → ℚ) (u : ℚ)
    (hne : b.arms ≠ []) (hlen : b.rewards.p.length = b.arms.length) :
    ∃ b', b.pull rvs u = some b' ∧
      b'.rewards = b.rewards ∧
      b'.arms.length = b.arms.length ∧
      (∀ j, j ≠ argmax (b.sample rvs) → b'.arms[j]? = b.arms[j]?) ∧
      armTotal b' = armTotal b + 1 := by
  obtain ⟨pr, ab, hslen, harm, hmax, hp, ha, hpay, hpull⟩ := pull_spec b rvs u hne hlen
  refine ⟨_, hpull, rfl, by simp, ?_, ?_⟩
  · intro j hj
    exact List.getElem?_set_ne (fun h => hj h.symm)
  · show ((b.arms.set (argmax (b.sample rvs)) _).map (fun ab => ab.1 + ab.2)).sum = _
    rw [List.map_set, List.sum_set']
    have harm' : argmax (b.sample rvs) < (b.arms.map (fun ab => ab.1 + ab.2)).length := by
      simpa using harm
    rw [dif_pos harm']
    have hval : (b.arms.map (fun ab => ab.1 + ab.2))[argmax (b.sample rvs)]? =
        some (ab.1 + ab.2) := by
      rw [List.getElem?_map, ha]
      rfl
    obtain ⟨hlt, hval2⟩ := List.getElem?_eq_some_iff.mp hval
    rw [hval2]
    unfold armTotal
    by_cases h : u < pr <;> simp [h] <;> ring

/-- All of `n` calls of `pull()` succeed and add exactly `n` to the total
Beta-parameter mass; the arm count and the reward object never change. -/
theorem pullN_spec (b : MultiArmedBandit) (rvs : ℕ → ℕ → ℚ) (us : ℕ → ℚ)
    (hne : b.arms ≠ []) (hlen : b.rewards.p.length = b.arms.length) :
    ∀ n : ℕ, ∃ bn, b.pullN rvs us n = some bn ∧
      armTotal bn = armTotal b + n ∧
      bn.arms.length = b.arms.length ∧
      bn.rewards = b.rewards := by
  intro n
  induction n with
  | zero => exact ⟨b, rfl, by simp, rfl, rfl⟩
  | succ n ih =>
    obtain ⟨bn, hbn, hsum, hlen', hrw⟩ := ih
    have hne' : bn.arms ≠ [] := by
      intro h
      apply hne
      rw [h] at hlen'
      exact List.length_eq_zero.mp hlen'.symm
    have hlen'' : bn.rewards.p.length = bn.arms.length := by
      rw [hrw, hlen, hlen']
    obtain ⟨b', hb', hrw', hl', _, hsum'⟩ := pull_effects bn (rvs n) (us n) hne' hlen''
    refine ⟨b', ?_, ?_, ?_, ?_⟩
    · show (b.pullN rvs us n).bind _ = some b'
      rw [hbn]
      simpa using hb'
    · rw [hsum', hsum]; push_cast; ring
    · rw [hl', hlen']
    · rw [hrw', hrw]

/-! ### Claim theorems for the bandit notebook -/

/-- C1: a `pull()` on a bandit built from non-empty priors draws one Beta
sample per arm, selects an arm with maximal sample (the argmax), draws that
arm's Bernoulli(p) reward from the `Reward` built from the same priors, and
increments exactly one Beta parameter of the selected arm: `a` on a win,
otherwise `b`. -/
theorem multiArmedBandit_pull_thompson_spec (priors : List BetaPrior)
    (rvs : ℕ → ℚ) (u : ℚ) (hne : priors ≠ []) :
    ∃ prior : BetaPrior,
      priors[argmax ((MultiArmedBandit.ofPriors priors).sample rvs)]? = some prior ∧
      ((MultiArmedBandit.ofPriors priors).sample rvs).length = priors.length ∧
      (∀ x ∈ (MultiArmedBandit.ofPriors priors).sample rvs,
        x ≤ ((MultiArmedBandit.ofPriors priors).sample rvs)[argmax ((MultiArmedBandit.ofPriors priors).sample rvs)]!) ∧
      (MultiArmedBandit.ofPriors priors).rewards = Reward.ofPriors priors ∧
      (MultiArmedBandit.ofPriors priors).rewards.pay
        (argmax ((MultiArmedBandit.ofPriors priors).sample rvs)) u =
        some (decide (u < prior.p)) ∧
      (MultiArmedBandit.ofPriors priors).pull rvs u =
        some { arms := (priors.map (fun pr => (pr.a, pr.b))).set
                 (argmax ((MultiArmedBandit.ofPriors priors).sample rvs))
                 (if u < prior.p then (prior.a + 1, prior.b) else (prior.a, prior.b + 1)),
               rewards := Reward.ofPriors priors } := by
  have hne' : (MultiArmedBandit.ofPriors priors).arms ≠ [] := by
    simp [MultiArmedBandit.ofPriors]
    exact hne
  have hlen : (MultiArmedBandit.ofPriors priors).rewards.p.length =
      (MultiArmedBandit.ofPriors priors).arms.length := by
    simp [MultiArmedBandit.ofPriors, Reward.ofPriors]
  obtain ⟨pr, ab, hslen, harm, hmax, hp, ha, hpay, hpull⟩ :=
    pull_spec (MultiArmedBandit.ofPriors priors) rvs u hne' hlen
  have harmp : argmax ((MultiArmedBandit.ofPriors priors).sample rvs) < priors.length := by
    have : (MultiArmedBandit.ofPriors priors).arms.length = priors.length := by
      simp [MultiArmedBandit.ofPriors]
    rwa [this] at harm
  obtain ⟨prior, hprior⟩ :
      ∃ prior, priors[argmax ((MultiArmedBandit.ofPriors priors).sample rvs)]? = some prior := by
    rw [List.getElem?_eq_getElem harmp]
    exact ⟨_, rfl⟩
  have hprp : pr = prior.p := by
    have hrewp : (MultiArmedBandit.ofPriors priors).rewards.p =
        priors.map (fun beta => beta.p) := rfl
    rw [hrewp, List.getElem?_map, hprior] at hp
    simp only [Option.map_some'] at hp
    exact (Option.some.inj hp).symm
  have habp : ab = (prior.a, prior.b) := by
    have harms : (MultiArmedBandit.ofPriors priors).arms =
        priors.map (fun pr => (pr.a, pr.b)) := rfl
    rw [harms, List.getElem?_map, hprior] at ha
    simp only [Option.map_some'] at ha
    exact (Option.some.inj ha).symm
  refine ⟨prior, hprior, ?_, hmax, rfl, ?_, ?_⟩
  · have : (MultiArmedBandit.ofPriors priors).arms.length = priors.length := by
      simp [MultiArmedBandit.ofPriors]
    rw [hslen, this]
  · rw [hpay, hprp]
  · rw [hpull, hprp, habp]
    rfl

/-- C4: each successful `pull()` leaves every non-selected arm's `(a, b)`
unchanged and raises the sum over all arms of `a + b` by exactly `1`;
after `n` pulls that sum equals its initial value plus `n`. -/
theorem multiArmedBandit_pull_mass_invariant (b : MultiArmedBandit)
    (rvs : ℕ → ℚ) (u : ℚ) (rvsN : ℕ → ℕ → ℚ) (usN : ℕ → ℚ) (n : ℕ)
    (hne : b.arms ≠ []) (hlen : b.rewards.p.length = b.arms.length) :
    (∃ b', b.pull rvs u = some b' ∧
      (∀ j, j ≠ argmax (b.sample rvs) → b'.arms[j]? = b.arms[j]?) ∧
      armTotal b' = armTotal b + 1) ∧
    (∃ bn, b.pullN rvsN usN n = some bn ∧ armTotal bn = armTotal b + n) := by
  constructor
  · obtain ⟨b', h1, _, _, h4, h5⟩ := pull_effects b rvs u hne hlen
    exact ⟨b', h1, h4, h5⟩
  · obtain ⟨bn, h1, h2, _, _⟩ := pullN_spec b rvsN usN hne hlen n
    exact ⟨bn, h1, h2⟩

/-- C9: on a bandit built from a non-empty priors list, `pull()` never
indexes out of bounds: the argmax is strictly below the number of arms, the
Bernoulli list of the `Reward` has the same length as the arms list, and
both `pay` and `pull` succeed. -/
theorem multiArmedBandit_pull_in_bounds (priors : List BetaPrior)
    (rvs : ℕ → ℚ) (u : ℚ) (hne : priors ≠ []) :
    argmax ((MultiArmedBandit.ofPriors priors).sample rvs) <
      (MultiArmedBandit.ofPriors priors).arms.length ∧
    (MultiArmedBandit.ofPriors priors).rewards.p.length =
      (MultiArmedBandit.ofPriors priors).arms.length ∧
    ((MultiArmedBandit.ofPriors priors).rewards.pay
      (argmax ((MultiArmedBandit.ofPriors priors).sample rvs)) u).isSome ∧
    ((MultiArmedBandit.ofPriors priors).pull rvs u).isSome := by
  have hne' : (MultiArmedBandit.ofPriors priors).arms ≠ [] := by
    simp [MultiArmedBandit.ofPriors]
    exact hne
  have hlen : (MultiArmedBandit.ofPriors priors).rewards.p.length =
      (MultiArmedBandit.ofPriors priors).arms.length := by
    simp [MultiArmedBandit.ofPriors, Reward.ofPriors]
  obtain ⟨pr, ab, hslen, harm, hmax, hp, ha, hpay, hpull⟩ :=
    pull_spec (MultiArmedBandit.ofPriors priors) rvs u hne' hlen
  exact ⟨harm, hlen, by rw [hpay]; rfl, by rw [hpull]; rfl⟩

/-- Witness for C1 at the demo priors. -/
theorem multiArmedBandit_pull_thompson_spec_witness :
    priorsW ≠ [] ∧
    (∃ prior : BetaPrior,
      priorsW[argmax ((MultiArmedBandit.ofPriors priorsW).sample rvsW)]? = some prior ∧
      ((MultiArmedBandit.ofPriors priorsW).sample rvsW).length = priorsW.length ∧
      (∀ x ∈ (MultiArmedBandit.ofPriors priorsW).sample rvsW,
        x ≤ ((MultiArmedBandit.ofPriors priorsW).sample rvsW)[argmax ((MultiArmedBandit.ofPriors priorsW).sample rvsW)]!) ∧
      (MultiArmedBandit.ofPriors priorsW).rewards = Reward.ofPriors priorsW ∧
      (MultiArmedBandit.ofPriors priorsW).rewards.pay
        (argmax ((MultiArmedBandit.ofPriors priorsW).sample rvsW)) (1/2) =
        some (decide ((1:ℚ)/2 < prior.p)) ∧
      (MultiArmedBandit.ofPriors priorsW).pull rvsW (1/2) =
        some { arms := (priorsW.map (fun pr => (pr.a, pr.b))).set
                 (argmax ((MultiArmedBandit.ofPriors priorsW).sample rvsW))
                 (if (1:ℚ)/2 < prior.p then (prior.a + 1, prior.b) else (prior.a, prior.b + 1)),
               rewards := Reward.ofPriors priorsW }) :=
  ⟨List.cons_ne_nil _ _,
   multiArmedBandit_pull_thompson_spec priorsW rvsW (1/2) (List.cons_ne_nil _ _)⟩

/-- Witness for C4 at the demo priors, with `n = 3` pulls. -/
theorem multiArmedBandit_pull_mass_invariant_witness :
    (MultiArmedBandit.ofPriors priorsW).arms ≠ [] ∧
    (MultiArmedBandit.ofPriors priorsW).rewards.p.length =
      (MultiArmedBandit.ofPriors priorsW).arms.length ∧
    ((∃ b', (MultiArmedBandit.ofPriors priorsW).pull rvsW (1/2) = some b' ∧
      (∀ j, j ≠ argmax ((MultiArmedBandit.ofPriors priorsW).sample rvsW) →
        b'.arms[j]? = (MultiArmedBandit.ofPriors priorsW).arms[j]?) ∧
      armTotal b' = armTotal (MultiArmedBandit.ofPriors priorsW) + 1) ∧
    (∃ bn, (MultiArmedBandit.ofPriors priorsW).pullN (fun _ => rvsW) (fun _ => 1/2) 3 = some bn ∧
      armTotal bn = armTotal (MultiArmedBandit.ofPriors priorsW) + 3)) :=
  ⟨by decide, by decide,
   multiArmedBandit_pull_mass_invariant (MultiArmedBandit.ofPriors priorsW)
     rvsW (1/2) (fun _ => rvsW) (fun _ => 1/2) 3 (by decide) (by decide)⟩

/-- Witness for C9 at the demo priors. -/
theorem multiArmedBandit_pull_in_bounds_witness :
    priorsW ≠ [] ∧
    (argmax ((MultiArmedBandit.ofPriors priorsW).sample rvsW) <
      (MultiArmedBandit.ofPriors priorsW).arms.length ∧
    (MultiArmedBandit.ofPriors priorsW).rewards.p.length =
      (MultiArmedBandit.ofPriors priorsW).arms.length ∧
    ((MultiArmedBandit.ofPriors priorsW).rewards.pay
      (argmax ((MultiArmedBandit.ofPriors priorsW).sample rvsW)) (1/2)).isSome ∧
    ((MultiArmedBandit.ofPriors priorsW).pull rvsW (1/2)).isSome) :=
  ⟨List.cons_ne_nil _ _,
   multiArmedBandit_pull_in_bounds priorsW rvsW (1/2) (List.cons_ne_nil _ _)⟩

/-- C2: the accept step returns true whenever `proposed ≥ current`; when
`proposed < current` it accepts exactly the uniform draws below
`exp(proposed - current)`, a set of probability (Lebesgue measure within
`[0, 1)`) equal to `exp(proposed - current)`. -/
theorem metropolis_accept_correct (proposed current : ℝ) :
    (current ≤ proposed → ∀ u : ℝ, Metropolis.accept proposed current u) ∧
    (proposed < current →
      (∀ u : ℝ, Metropolis.accept proposed current u ↔ u < Real.exp (proposed - current)) ∧
      MeasureTheory.volume {u : ℝ | u ∈ Set.Ico (0 : ℝ) 1 ∧ Metropolis.accept proposed current u} =
        ENNReal.ofReal (Real.exp (proposed - current))) := by
  constructor
  · intro h u
    unfold Metropolis.accept
    rw [if_pos h]
    trivial
  · intro h
    have hnot : ¬ current ≤ proposed := not_le.mpr h
    have hiff : ∀ u : ℝ, Metropolis.accept proposed current u ↔
        u < Real.exp (proposed - current) := by
      intro u
      unfold Metropolis.accept
      rw [if_neg hnot]
    refine ⟨hiff, ?_⟩
    have he1 : Real.exp (proposed - current) < 1 := by
      rw [Real.exp_lt_one_iff]
      linarith
    have hset : {u : ℝ | u ∈ Set.Ico (0 : ℝ) 1 ∧ Metropolis.accept proposed current u} =
        Set.Ico (0 : ℝ) (Real.exp (proposed - current)) := by
      ext u
      simp only [Set.mem_setOf_eq, Set.mem_Ico, hiff u]
      constructor
      · rintro ⟨⟨h0, _⟩, h2⟩
        exact ⟨h0, h2⟩
      · rintro ⟨h0, h2⟩
        exact ⟨⟨h0, lt_trans h2 he1⟩, h2⟩
    rw [hset, Real.volume_Ico, sub_zero]

/-- Witness for C2: an equally likely proposal is always accepted. -/
theorem metropolis_accept_correct_witness :
    (0 : ℝ) ≤ 0 ∧ Metropolis.accept 0 0 (1/2) :=
  ⟨le_refl 0, (metropolis_accept_correct 0 0).1 (le_refl 0) (1/2)⟩

/-- C6: `evaluate_strategy` returns the opened/not-opened result (`1` or
`0`) on success, and its only failure handling is mapping a rate-limit
response to the sentinel `none`: the sentinel occurs exactly on rate-limit
responses, and every outcome is one of the three values. -/
theorem evaluate_strategy_result_spec (strategy : ℕ) (server : ℕ → CampaignResult) :
    (server strategy = CampaignResult.opened →
      CampaignManager.evaluate_strategy strategy server = some 1) ∧
    (server strategy = CampaignResult.notOpened →
      CampaignManager.evaluate_strategy strategy server = some 0) ∧
    (CampaignManager.evaluate_strategy strategy server = none ↔
      server strategy = CampaignResult.rateLimited) ∧
    (CampaignManager.evaluate_strategy strategy server = some 1 ∨
     CampaignManager.evaluate_strategy strategy server = some 0 ∨
     CampaignManager.evaluate_strategy strategy server = none) := by
  cases h : server strategy <;>
    simp [CampaignManager.evaluate_strategy, h]

/-- Witness for C6: one concrete server response of each kind. -/
theorem evaluate_strategy_result_spec_witness :
    CampaignManager.evaluate_strategy 2 (fun _ => CampaignResult.opened) = some 1 ∧
    CampaignManager.evaluate_strategy 3 (fun _ => CampaignResult.notOpened) = some 0 ∧
    CampaignManager.evaluate_strategy 1 (fun _ => CampaignResult.rateLimited) = none :=
  ⟨(evaluate_strategy_result_spec 2 (fun _ => CampaignResult.opened)).1 rfl,
   (evaluate_strategy_result_spec 3 (fun _ => CampaignResult.notOpened)).2.1 rfl,
   (evaluate_strategy_result_spec 1 (fun _ => CampaignResult.rateLimited)).2.2.1.mpr rfl⟩

/-- C8: both generators are idempotent with respect to the generated CSV:
a call on an existing file writes nothing and returns the filename, so a
second call with the same arguments leaves the files exactly as the first
call produced them; and `make_sine_wave` returns the filename even though
its annotation says `None`. -/
theorem make_linear_sine_wave_idempotent (filename : String) (size : ℕ)
    (a b s : ℚ) (t : List ℚ) (sinF : ℚ → ℚ) (gauss : ℕ → ℚ) (fs : FileSystem) :
    (∀ d, fs.lookup filename = some d →
      make_linear filename size a b s gauss fs = (fs, filename)) ∧
    (make_linear filename size a b s gauss
        (make_linear filename size a b s gauss fs).1 =
      ((make_linear filename size a b s gauss fs).1, filename)) ∧
    (∀ d, fs.lookup filename = some d →
      make_sine_wave filename a b s t sinF gauss fs = (fs, filename)) ∧
    (make_sine_wave filename a b s t sinF gauss
        (make_sine_wave filename a b s t sinF gauss fs).1 =
      ((make_sine_wave filename a b s t sinF gauss fs).1, filename)) ∧
    (make_sine_wave filename a b s t sinF gauss fs).2 = filename := by
  have hlin : ∀ d, fs.lookup filename = some d →
      make_linear filename size a b s gauss fs = (fs, filename) := by
    intro d hd
    unfold make_linear
    rw [hd]
  have hsin : ∀ d, fs.lookup filename = some d →
      make_sine_wave filename a b s t sinF gauss fs = (fs, filename) := by
    intro d hd
    unfold make_sine_wave
    rw [hd]
  refine ⟨hlin, ?_, hsin, ?_, ?_⟩
  · cases h : fs.lookup filename with
    | some d =>
      rw [hlin d h, hlin d h]
    | none =>
      have h1 : (make_linear filename size a b s gauss fs).1 =
          (filename, (List.range (linspace 0 1 size).length).map
            (fun i => ((linspace 0 1 size)[i]!,
              a * (linspace 0 1 size)[i]! + b + s * gauss i))) :: fs := by
        unfold make_linear
        rw [h]
      rw [h1]
      unfold make_linear
      rw [List.lookup_cons_self]
  · cases h : fs.lookup filename with
    | some d =>
      rw [hsin d h, hsin d h]
    | none =>
      have h1 : (make_sine_wave filename a b s t sinF gauss fs).1 =
          (filename, (List.range t.length).map
            (fun i => (t[i]!, a * sinF (b * t[i]!) + s * gauss i))) :: fs := by
        unfold make_sine_wave
        rw [h]
      rw [h1]
      unfold make_sine_wave
      rw [List.lookup_cons_self]
  · unfold make_sine_wave
    cases h : fs.lookup filename <;> rfl

/-- Witness for C8: a one-file store on which the existing-file branch is
exercised (for both helpers), plus the fresh-file second-call identity. -/
theorem make_linear_sine_wave_idempotent_witness :
    ([("d.csv", [((0 : ℚ), (0 : ℚ))])] : FileSystem).lookup "d.csv" =
      some [((0 : ℚ), (0 : ℚ))] ∧
    make_linear "d.csv" 5 2 4 (1/2) (fun _ => 0) [("d.csv", [(0, 0)])] =
      ([("d.csv", [(0, 0)])], "d.csv") ∧
    make_sine_wave "d.csv" 3 2 (1/5) [0, 1] (fun q => q) (fun _ => 0)
        [("d.csv", [(0, 0)])] =
      ([("d.csv", [(0, 0)])], "d.csv") ∧
    (make_sine_wave "d.csv" 3 2 (1/5) [0, 1] (fun q => q) (fun _ => 0)
        [("d.csv", [(0, 0)])]).2 = "d.csv" :=
  ⟨rfl,
   (make_linear_sine_wave_idempotent "d.csv" 5 2 4 (1/2) [0, 1] (fun q => q)
      (fun _ => 0) [("d.csv", [(0, 0)])]).1 [(0, 0)] rfl,
   (make_linear_sine_wave_idempotent "d.csv" 5 3 2 (1/5) [0, 1] (fun q => q)
      (fun _ => 0) [("d.csv", [(0, 0)])]).2.2.1 [(0, 0)] rfl,
   (make_linear_sine_wave_idempotent "d.csv" 5 3 2 (1/5) [0, 1] (fun q => q)
      (fun _ => 0) [("d.csv", [(0, 0)])]).2.2.2.2⟩

end Goad
